import Mathlib

set_option maxRecDepth 8000

/-!
Verification development for the content pipeline of the `ammly-xyz`
portfolio site: the MDX content loaders (`lib/blog`, `lib/ventures`,
`lib/experiences`), the reading-time and heading-anchor derivations, and the
venture-card icon lookup.  Each definition is a shallow embedding of the
corresponding TypeScript function; filesystem access is modelled by explicit
state passing over an `FS` value, and JavaScript exceptions by `Except` /
`Option` results.
-/

/-- Characters matched by the whitespace class of JavaScript regular
expressions, restricted to the ASCII range (the content files are ASCII). -/
def isJsWhitespace (c : Char) : Bool :=
  c = ' ' || c = '\t' || c = '\n' || c = '\r' || c = '\x0b' || c = '\x0c'

/-- Whether the head of a character list satisfies `p` (`false` on `[]`). -/
def headSat (p : Char → Bool) : List Char → Bool
  | [] => false
  | c :: _ => p c

/-- Splitting a character list at maximal whitespace runs, as the JavaScript
expression `content.split(/\s+/)` does: each maximal whitespace run is one
separator, empty fields are kept when a run touches either end of the string,
and the empty string yields a single empty field. -/
def jsSplitWs : List Char → List (List Char)
  | [] => [[]]
  | c :: cs =>
    if isJsWhitespace c then
      if headSat isJsWhitespace cs then jsSplitWs cs
      else [] :: jsSplitWs cs
    else
      match jsSplitWs cs with
      | [] => [[c]]
      | f :: fs => (c :: f) :: fs

/-- Number of maximal runs of characters satisfying `p`; each run is counted
at its last element. -/
def countRuns (p : Char → Bool) : List Char → Nat
  | [] => 0
  | c :: cs => countRuns p cs + (if p c && !(headSat p cs) then 1 else 0)

/-- Word count of a body text in the ordinary sense: the number of maximal
runs of non-whitespace characters. -/
def trueWordCount (s : String) : Nat :=
  countRuns (fun c => !(isJsWhitespace c)) s.data

/-- Lean model of `calculateReadingTime` from the blog library: the word
count is the number of fields of `content.split(/\s+/)`, the minute count is
the ceiling of `wordCount / 200`, and the result is rendered as
`"N min read"`. -/
def calculateReadingTime (content : String) : String :=
  let wordCount := (jsSplitWs content.data).length
  let minutes := (wordCount + 199) / 200
  toString minutes ++ " min read"

theorem jsSplitWs_ne_nil (l : List Char) : jsSplitWs l ≠ [] := by
  induction l with
  | nil => simp [jsSplitWs]
  | cons c cs ih =>
    rw [jsSplitWs]
    split
    · split
      · exact ih
      · simp
    · split <;> simp

theorem jsSplitWs_length (l : List Char) :
    (jsSplitWs l).length = countRuns isJsWhitespace l + 1 := by
  induction l with
  | nil => simp [jsSplitWs, countRuns]
  | cons c cs ih =>
    by_cases hc : isJsWhitespace c = true
    · by_cases hh : headSat isJsWhitespace cs = true
      · simp [jsSplitWs, hc, hh, countRuns, ih]
      · simp only [Bool.not_eq_true] at hh
        simp [jsSplitWs, hc, hh, countRuns, ih]
    · have hcf : isJsWhitespace c = false := by simpa using hc
      obtain ⟨f, fs, heq⟩ : ∃ f fs, jsSplitWs cs = f :: fs := by
        cases h : jsSplitWs cs with
        | nil => exact absurd h (jsSplitWs_ne_nil cs)
        | cons f fs => exact ⟨f, fs, rfl⟩
      have h2 := ih
      rw [heq] at h2
      simp only [List.length_cons] at h2
      simp [jsSplitWs, hcf, heq, countRuns, h2]

theorem countRuns_alternate (l : List Char) (c : Char)
    (hlast : ∀ d, (c :: l).getLast? = some d → isJsWhitespace d = false) :
    (isJsWhitespace c = false →
      countRuns (fun d => !(isJsWhitespace d)) (c :: l)
        = countRuns isJsWhitespace (c :: l) + 1)
    ∧ (isJsWhitespace c = true →
      countRuns (fun d => !(isJsWhitespace d)) (c :: l)
        = countRuns isJsWhitespace (c :: l)) := by
  induction l generalizing c with
  | nil =>
    have hc : isJsWhitespace c = false := hlast c rfl
    simp [countRuns, headSat, hc]
  | cons d l ih =>
    have hlast' : ∀ e, (d :: l).getLast? = some e → isJsWhitespace e = false := by
      intro e he
      exact hlast e (by rwa [List.getLast?_cons_cons])
    have ihd := ih d hlast'
    constructor
    · intro hc
      by_cases hd : isJsWhitespace d = true
      · have h2 := ihd.2 hd
        simp [countRuns, headSat, hc, hd] at h2 ⊢
        omega
      · have hdf : isJsWhitespace d = false := by simpa using hd
        have h1 := ihd.1 hdf
        simp [countRuns, headSat, hc, hdf] at h1 ⊢
        omega
    · intro hc
      by_cases hd : isJsWhitespace d = true
      · have h2 := ihd.2 hd
        simp [countRuns, headSat, hc, hd] at h2 ⊢
        omega
      · have hdf : isJsWhitespace d = false := by simpa using hd
        have h1 := ihd.1 hdf
        simp [countRuns, headSat, hc, hdf] at h1 ⊢
        omega

theorem jsSplitWs_length_of_trimmed (l : List Char) (c : Char)
    (hhead : l.head? = some c) (hc : isJsWhitespace c = false)
    (hlast : ∀ d, l.getLast? = some d → isJsWhitespace d = false) :
    (jsSplitWs l).length = countRuns (fun d => !(isJsWhitespace d)) l := by
  cases l with
  | nil => simp at hhead
  | cons a as =>
    have hac : a = c := by
      have := hhead
      simp only [List.head?_cons, Option.some.injEq] at this
      exact this
    rw [jsSplitWs_length]
    rw [(countRuns_alternate as a hlast).1 (by rw [hac]; exact hc)]

/-- Lower-case ASCII letters and digits: the characters kept by the anchor
derivation's character class. -/
def isAnchorChar (c : Char) : Bool :=
  ('a' ≤ c && c ≤ 'z') || ('0' ≤ c && c ≤ '9')

/-- Negation of `isAnchorChar`, i.e. the characters the anchor regex
replaces. -/
def badChar (c : Char) : Bool := !(isAnchorChar c)

/-- Replace every maximal run of characters outside `a-z0-9` by one dash, as
the replace with a dash of the global regex matching non-alphanumeric runs
does; the dash is emitted at the last element of each run. -/
def collapseNonAlnum : List Char → List Char
  | [] => []
  | c :: cs =>
    if isAnchorChar c then c :: collapseNonAlnum cs
    else if headSat badChar cs then collapseNonAlnum cs
    else '-' :: collapseNonAlnum cs

/-- Remove a single leading dash, as the start-anchored alternative of the
trimming regex does. -/
def stripLeadDash : List Char → List Char
  | [] => []
  | c :: rest => if c = '-' then rest else c :: rest

/-- Remove a single trailing dash, as the end-anchored alternative of the
trimming regex does. -/
def stripTrailDash (l : List Char) : List Char :=
  if l.getLast? = some '-' then l.dropLast else l

/-- Lean model of the heading-anchor derivation inside
`extractTableOfContents`: lower-case the heading title, collapse every run
of characters outside `a-z0-9` to a single dash, and strip one dash at
either end. -/
def deriveAnchorId (title : String) : String :=
  ⟨stripTrailDash (stripLeadDash (collapseNonAlnum (title.data.map Char.toLower)))⟩

/-- Maximal runs of characters satisfying `p`, in order of appearance. -/
def runsOf (p : Char → Bool) : List Char → List (List Char)
  | [] => []
  | c :: cs =>
    if p c then
      if headSat p cs then
        match runsOf p cs with
        | [] => [[c]]
        | r :: rs => (c :: r) :: rs
      else [c] :: runsOf p cs
    else runsOf p cs

/-- Join a list of words with a single dash between consecutive words. -/
def joinDashes : List (List Char) → List Char
  | [] => []
  | [w] => w
  | w :: ws => w ++ '-' :: joinDashes ws

/-- Spec-side description of the anchor identifier: the title lower-cased
with every maximal run of non-alphanumeric characters collapsed to a single
dash separator and no leading or trailing separator; equivalently, the
maximal alphanumeric runs of the lower-cased title joined by single
dashes. -/
def anchorOfSpec (title : String) : String :=
  ⟨joinDashes (runsOf isAnchorChar (title.data.map Char.toLower))⟩

/-- Whether the last character of the list fails `isAnchorChar`. -/
def lastBad : List Char → Bool
  | [] => false
  | [c] => badChar c
  | _ :: c :: cs => lastBad (c :: cs)

/-- Canonical shape of the collapsed character list, in terms of the maximal
alphanumeric runs of the input. -/
def collapseShape (l : List Char) : List Char :=
  if runsOf isAnchorChar l = [] then (if l = [] then [] else ['-'])
  else
    (if headSat badChar l then ['-'] else [])
      ++ joinDashes (runsOf isAnchorChar l)
      ++ (if lastBad l then ['-'] else [])

theorem joinDashes_cons_run (c : Char) (r : List Char) (rs : List (List Char)) :
    joinDashes ((c :: r) :: rs) = c :: joinDashes (r :: rs) := by
  cases rs with
  | nil => rfl
  | cons r2 rs => simp [joinDashes]

theorem runsOf_ne_nil_of_head_good (d : Char) (cs : List Char)
    (hd : isAnchorChar d = true) : runsOf isAnchorChar (d :: cs) ≠ [] := by
  rw [runsOf, if_pos hd]
  split
  · split <;> simp
  · simp

theorem runsOf_eq_nil_iff (l : List Char) :
    runsOf isAnchorChar l = [] ↔ ∀ x ∈ l, isAnchorChar x = false := by
  induction l with
  | nil => simp [runsOf]
  | cons c cs ih =>
    by_cases hc : isAnchorChar c = true
    · constructor
      · intro h
        exact absurd h (runsOf_ne_nil_of_head_good c cs hc)
      · intro h
        exact absurd hc (by simpa using h c (by simp))
    · have hcf : isAnchorChar c = false := by simpa using hc
      rw [runsOf, if_neg hc]
      rw [ih]
      constructor
      · intro h x hx
        rcases List.mem_cons.mp hx with rfl | hx
        · exact hcf
        · exact h x hx
      · intro h x hx
        exact h x (List.mem_cons_of_mem _ hx)

theorem lastBad_of_getLast? (l : List Char) (d : Char)
    (h : l.getLast? = some d) : lastBad l = badChar d := by
  induction l with
  | nil => simp at h
  | cons c cs ih =>
    cases cs with
    | nil =>
      simp only [List.getLast?_singleton, Option.some.injEq] at h
      subst h
      rfl
    | cons e es =>
      rw [List.getLast?_cons_cons] at h
      rw [show lastBad (c :: e :: es) = lastBad (e :: es) from rfl]
      exact ih h

theorem runsOf_words (l : List Char) :
    ∀ w ∈ runsOf isAnchorChar l, w ≠ [] ∧ ∀ c ∈ w, isAnchorChar c = true := by
  induction l with
  | nil => simp [runsOf]
  | cons c cs ih =>
    intro w hw
    rw [runsOf] at hw
    by_cases hc : isAnchorChar c = true
    · rw [if_pos hc] at hw
      by_cases hh : headSat isAnchorChar cs = true
      · rw [if_pos hh] at hw
        cases hrc : runsOf isAnchorChar cs with
        | nil =>
          rw [hrc] at hw
          simp only [List.mem_singleton] at hw
          subst hw
          refine ⟨by simp, ?_⟩
          intro x hx
          simp only [List.mem_singleton] at hx
          subst hx
          exact hc
        | cons r rs =>
          rw [hrc] at hw
          rcases List.mem_cons.mp hw with h | h
          · subst h
            have hr := ih r (by rw [hrc]; simp)
            refine ⟨by simp, ?_⟩
            intro x hx
            rcases List.mem_cons.mp hx with rfl | hx
            · exact hc
            · exact hr.2 x hx
          · exact ih w (by rw [hrc]; exact List.mem_cons_of_mem _ h)
      · rw [if_neg hh] at hw
        rcases List.mem_cons.mp hw with rfl | h
        · refine ⟨by simp, ?_⟩
          intro x hx
          simp only [List.mem_singleton] at hx
          subst hx
          exact hc
        · exact ih w h
    · rw [if_neg hc] at hw
      exact ih w hw

theorem collapse_eq_shape (l : List Char) :
    collapseNonAlnum l = collapseShape l := by
  induction l with
  | nil => simp [collapseNonAlnum, collapseShape, runsOf]
  | cons c cs ih =>
    by_cases hc : isAnchorChar c = true
    · cases cs with
      | nil =>
        simp [collapseNonAlnum, collapseShape, runsOf, headSat, badChar, hc,
          joinDashes, lastBad]
      | cons d cs' =>
        by_cases hd : isAnchorChar d = true
        · obtain ⟨r, rs, hr⟩ : ∃ r rs,
              runsOf isAnchorChar (d :: cs') = r :: rs := by
            cases h : runsOf isAnchorChar (d :: cs') with
            | nil => exact absurd h (runsOf_ne_nil_of_head_good d cs' hd)
            | cons r rs => exact ⟨r, rs, rfl⟩
          have hshape : collapseShape (d :: cs')
              = joinDashes (r :: rs)
                ++ (if lastBad (d :: cs') then ['-'] else []) := by
            rw [collapseShape, hr]
            simp [headSat, badChar, hd]
          have hcoll : collapseNonAlnum (c :: d :: cs')
              = c :: collapseNonAlnum (d :: cs') := by
            rw [collapseNonAlnum, if_pos hc]
          have hruns : runsOf isAnchorChar (c :: d :: cs')
              = (c :: r) :: rs := by
            rw [runsOf, if_pos hc, hr]
            simp [headSat, hd]
          rw [hcoll, ih, hshape, collapseShape, hruns]
          simp only [reduceCtorEq, if_neg, List.cons_ne_nil, not_false_iff]
          rw [joinDashes_cons_run]
          simp [headSat, badChar, hc, lastBad]
        · have hdf : isAnchorChar d = false := by simpa using hd
          have hcoll : collapseNonAlnum (c :: d :: cs')
              = c :: collapseNonAlnum (d :: cs') := by
            rw [collapseNonAlnum, if_pos hc]
          have hruns : runsOf isAnchorChar (c :: d :: cs')
              = [c] :: runsOf isAnchorChar (d :: cs') := by
            rw [runsOf, if_pos hc]
            simp [headSat, hdf]
          cases hr : runsOf isAnchorChar (d :: cs') with
          | nil =>
            have hlast : lastBad (d :: cs') = true := by
              have hall := (runsOf_eq_nil_iff (d :: cs')).mp hr
              obtain ⟨e, he⟩ : ∃ e, (d :: cs').getLast? = some e := by
                cases h : (d :: cs').getLast? with
                | none => simp at h
                | some e => exact ⟨e, rfl⟩
              rw [lastBad_of_getLast? _ _ he]
              have := hall e (List.mem_of_getLast?_eq_some he)
              simp [badChar, this]
            have hshape : collapseShape (d :: cs') = ['-'] := by
              rw [collapseShape, hr]
              simp
            rw [hcoll, ih, hshape, collapseShape, hruns, hr]
            simp [headSat, badChar, hc, joinDashes, lastBad, hlast]
          | cons r rs =>
            have hshape : collapseShape (d :: cs')
                = ['-'] ++ joinDashes (r :: rs)
                  ++ (if lastBad (d :: cs') then ['-'] else []) := by
              rw [collapseShape, hr]
              simp [headSat, badChar, hdf]
            rw [hcoll, ih, hshape, collapseShape, hruns, hr]
            simp only [reduceCtorEq, if_neg, List.cons_ne_nil, not_false_iff]
            rw [show joinDashes ([c] :: r :: rs)
                = [c] ++ '-' :: joinDashes (r :: rs) from by simp [joinDashes]]
            simp [headSat, badChar, hc, lastBad]
    · have hcf : isAnchorChar c = false := by simpa using hc
      cases cs with
      | nil =>
        simp [collapseNonAlnum, collapseShape, runsOf, headSat, badChar, hcf,
          lastBad]
      | cons d cs' =>
        have hruns : runsOf isAnchorChar (c :: d :: cs')
            = runsOf isAnchorChar (d :: cs') := by
          rw [runsOf, if_neg hc]
        by_cases hd : isAnchorChar d = true
        · obtain ⟨r, rs, hr⟩ : ∃ r rs,
              runsOf isAnchorChar (d :: cs') = r :: rs := by
            cases h : runsOf isAnchorChar (d :: cs') with
            | nil => exact absurd h (runsOf_ne_nil_of_head_good d cs' hd)
            | cons r rs => exact ⟨r, rs, rfl⟩
          have hcoll : collapseNonAlnum (c :: d :: cs')
              = '-' :: collapseNonAlnum (d :: cs') := by
            rw [collapseNonAlnum, if_neg hc]
            simp [headSat, badChar, hd]
          have hshape : collapseShape (d :: cs')
              = joinDashes (r :: rs)
                ++ (if lastBad (d :: cs') then ['-'] else []) := by
            rw [collapseShape, hr]
            simp [headSat, badChar, hd]
          rw [hcoll, ih, hshape, collapseShape, hruns, hr]
          simp [headSat, badChar, hcf, lastBad]
        · have hdf : isAnchorChar d = false := by simpa using hd
          have hcoll : collapseNonAlnum (c :: d :: cs')
              = collapseNonAlnum (d :: cs') := by
            rw [collapseNonAlnum, if_neg hc]
            simp [headSat, badChar, hdf]
          cases hr : runsOf isAnchorChar (d :: cs') with
          | nil =>
            have hshape : collapseShape (d :: cs') = ['-'] := by
              rw [collapseShape, hr]
              simp
            rw [hcoll, ih, hshape, collapseShape, hruns, hr]
            simp
          | cons r rs =>
            have hshape : collapseShape (d :: cs')
                = ['-'] ++ joinDashes (r :: rs)
                  ++ (if lastBad (d :: cs') then ['-'] else []) := by
              rw [collapseShape, hr]
              simp [headSat, badChar, hdf]
            rw [hcoll, ih, hshape, collapseShape, hruns, hr]
            simp [headSat, badChar, hcf, hdf, lastBad]

theorem isAnchorChar_ne_dash (c : Char) (h : isAnchorChar c = true) :
    c ≠ '-' := by
  intro heq
  subst heq
  exact absurd h (by decide)

theorem joinDashes_head? (r : List Char) (rs : List (List Char))
    (hr : r ≠ []) : (joinDashes (r :: rs)).head? = r.head? := by
  cases rs with
  | nil => rfl
  | cons r2 rs =>
    rw [show joinDashes (r :: r2 :: rs) = r ++ '-' :: joinDashes (r2 :: rs)
      from by simp [joinDashes]]
    cases r with
    | nil => exact absurd rfl hr
    | cons a r => simp

theorem joinDashes_getLast?_good (rs : List (List Char)) (r : List Char)
    (hwords : ∀ w ∈ r :: rs, w ≠ [] ∧ ∀ c ∈ w, isAnchorChar c = true) :
    ∃ d, (joinDashes (r :: rs)).getLast? = some d ∧ isAnchorChar d = true := by
  induction rs generalizing r with
  | nil =>
    have hr := hwords r (by simp)
    cases h : r.getLast? with
    | none => exact absurd (List.getLast?_eq_none_iff.mp h) hr.1
    | some d =>
      exact ⟨d, by simpa [joinDashes] using h,
        hr.2 d (List.mem_of_getLast?_eq_some h)⟩
  | cons r2 rs ih =>
    obtain ⟨d, hd, hgood⟩ := ih r2 (by
      intro w hw
      exact hwords w (List.mem_cons_of_mem _ hw))
    have hJ2 : joinDashes (r2 :: rs) ≠ [] := by
      intro h
      rw [h] at hd
      simp at hd
    refine ⟨d, ?_, hgood⟩
    rw [show joinDashes (r :: r2 :: rs) = r ++ '-' :: joinDashes (r2 :: rs)
      from by simp [joinDashes]]
    rw [List.getLast?_append]
    cases hJ : joinDashes (r2 :: rs) with
    | nil => exact absurd hJ hJ2
    | cons x xs =>
      rw [hJ] at hd
      simp [List.getLast?_cons_cons, hd]

theorem stripLeadDash_of_head (x : List Char) (c : Char)
    (hh : x.head? = some c) (hne : c ≠ '-') : stripLeadDash x = x := by
  cases x with
  | nil => simp at hh
  | cons a l =>
    simp only [List.head?_cons, Option.some.injEq] at hh
    subst hh
    simp [stripLeadDash, hne]

theorem stripStrip_shape (l : List Char) :
    stripTrailDash (stripLeadDash (collapseShape l))
      = joinDashes (runsOf isAnchorChar l) := by
  cases hr : runsOf isAnchorChar l with
  | nil =>
    rw [collapseShape, hr]
    simp only [if_pos rfl]
    by_cases hl : l = []
    · simp [hl, stripLeadDash, stripTrailDash, joinDashes]
    · simp [hl, stripLeadDash, stripTrailDash, joinDashes]
  | cons r rs =>
    have hwords : ∀ w ∈ r :: rs, w ≠ [] ∧ ∀ c ∈ w, isAnchorChar c = true := by
      rw [← hr]
      exact runsOf_words l
    have hrne : r ≠ [] := (hwords r (by simp)).1
    obtain ⟨c0, hc0⟩ : ∃ c0, r.head? = some c0 := by
      cases r with
      | nil => exact absurd rfl hrne
      | cons a _ => exact ⟨a, rfl⟩
    have hc0good : isAnchorChar c0 = true :=
      (hwords r (by simp)).2 c0 (by
        cases r with
        | nil => simp at hc0
        | cons a as =>
          simp only [List.head?_cons, Option.some.injEq] at hc0
          subst hc0
          simp)
    have hJhead : (joinDashes (r :: rs)).head? = some c0 := by
      rw [joinDashes_head? r rs hrne, hc0]
    obtain ⟨dL, hdL, hdLgood⟩ := joinDashes_getLast?_good rs r hwords
    rw [collapseShape, hr]
    simp only [reduceCtorEq, if_neg, not_false_iff]
    have step1 : stripLeadDash
        ((if headSat badChar l then ['-'] else [])
          ++ joinDashes (r :: rs) ++ (if lastBad l then ['-'] else []))
        = joinDashes (r :: rs) ++ (if lastBad l then ['-'] else []) := by
      by_cases hlead : headSat badChar l = true
      · rw [if_pos hlead]
        rfl
      · rw [if_neg hlead]
        simp only [List.nil_append]
        apply stripLeadDash_of_head _ c0 _ (isAnchorChar_ne_dash c0 hc0good)
        rw [List.head?_append, hJhead]
        rfl
    rw [step1]
    by_cases htrail : lastBad l = true
    · rw [if_pos htrail, stripTrailDash]
      rw [List.getLast?_concat]
      simp
    · rw [if_neg htrail]
      simp only [List.append_nil]
      rw [stripTrailDash, if_neg]
      rw [hdL]
      simp only [Option.some.injEq]
      exact isAnchorChar_ne_dash dL hdLgood

theorem deriveAnchorId_eq_spec (s : String) :
    deriveAnchorId s = anchorOfSpec s := by
  rw [deriveAnchorId, anchorOfSpec, collapse_eq_shape, stripStrip_shape]

/-- Scalar values of the simplified metadata-header format: the YAML value
kinds the content files of this repository actually use (booleans, integers
and plain strings). -/
inductive YamlVal where
  | bool (b : Bool)
  | num (n : Int)
  | str (s : String)
deriving DecidableEq, Repr

/-- Remove leading and trailing spaces. -/
def trimSpaces (l : List Char) : List Char :=
  ((l.dropWhile (fun c => c = ' ')).reverse.dropWhile (fun c => c = ' ')).reverse

/-- ASCII digit test. -/
def isDigitChar (c : Char) : Bool := '0' ≤ c && c ≤ '9'

/-- Numeric value of a digit list (most significant first). -/
def digitsVal (l : List Char) : Nat :=
  l.foldl (fun acc c => acc * 10 + (c.toNat - 48)) 0

/-- Parse an optionally signed decimal integer; `none` if the characters are
not exactly an integer literal. -/
def parseIntChars : List Char → Option Int
  | [] => none
  | '-' :: ds =>
    if ds ≠ [] && ds.all isDigitChar then some (-(digitsVal ds : Int)) else none
  | ds =>
    if ds.all isDigitChar then some (digitsVal ds : Int) else none

/-- Interpret one metadata scalar the way the YAML parser behind gray-matter
does for the value kinds used by this repository: `true` / `false` become
booleans, integer literals become numbers, everything else stays a string. -/
def parseYamlScalar (v : List Char) : YamlVal :=
  let t := trimSpaces v
  if t = "true".data then .bool true
  else if t = "false".data then .bool false
  else
    match parseIntChars t with
    | some n => .num n
    | none => .str ⟨t⟩

/-- Split a character list into lines at newline characters. -/
def splitLines : List Char → List (List Char)
  | [] => [[]]
  | '\n' :: cs => [] :: splitLines cs
  | c :: cs =>
    match splitLines cs with
    | [] => [[c]]
    | f :: fs => (c :: f) :: fs

/-- Join lines with newline characters. -/
def joinLines : List (List Char) → List Char
  | [] => []
  | [w] => w
  | w :: ws => w ++ '\n' :: joinLines ws

/-- Split a line at its first colon; `none` when the line has no colon. -/
def splitAtColon : List Char → Option (List Char × List Char)
  | [] => none
  | ':' :: rest => some ([], rest)
  | c :: rest =>
    match splitAtColon rest with
    | none => none
    | some p => some (c :: p.1, p.2)

/-- Split the lines after the opening delimiter into the metadata block and
the body: everything before the first line consisting of three dashes is
metadata, everything after it is body; `none` when no closing delimiter
line exists. -/
def splitFrontBody : List (List Char) → Option (List (List Char) × List (List Char))
  | [] => none
  | line :: rest =>
    if line = ['-', '-', '-'] then some ([], rest)
    else
      match splitFrontBody rest with
      | none => none
      | some p => some (line :: p.1, p.2)

/-- Parse the metadata lines into key/value pairs: blank lines are skipped,
a non-blank line without a colon is a parse error (the malformed-header
case in which gray-matter throws). -/
def parseFrontLines : List (List Char) → Except String (List (String × YamlVal))
  | [] => .ok []
  | line :: rest =>
    if trimSpaces line = [] then parseFrontLines rest
    else
      match splitAtColon line with
      | none => .error "invalid metadata line"
      | some (k, v) =>
        match parseFrontLines rest with
        | .error e => .error e
        | .ok more => .ok ((⟨trimSpaces k⟩, parseYamlScalar v) :: more)

/-- Lean model of the `matter(fileContents)` call (the gray-matter
dependency), restricted to the flat scalar headers this repository uses: a
document that does not open with a `---` delimiter line parses with an
empty data map and unchanged content; an opening delimiter without a
closing one, or a malformed header line, is a thrown error; otherwise the
header lines become the data map and the remaining lines the content. -/
def matterParse (s : String) : Except String (List (String × YamlVal) × String) :=
  match s.data with
  | '-' :: '-' :: '-' :: '\n' :: rest =>
    match splitFrontBody (splitLines rest) with
    | none => .error "unterminated metadata header"
    | some (front, body) =>
      match parseFrontLines front with
      | .error e => .error e
      | .ok data => .ok (data, ⟨joinLines body⟩)
  | _ => .ok ([], s)

/-- Look a key up in a parsed data map, as JavaScript property access on the
object produced by the header parser does. -/
def fmGet (key : String) (data : List (String × YamlVal)) : Option YamlVal :=
  (data.find? (fun kv => kv.1 = key)).map (fun kv => kv.2)

/-- Filesystem state as the loaders see it: the set of existing directories
and the files, each a (directory, file name, contents) triple. -/
structure FS where
  dirs : List String
  files : List (String × String × String)
deriving DecidableEq, Repr

/-- Model of `fs.existsSync` on a directory path. -/
def existsDir (fs : FS) (p : String) : Bool := fs.dirs.contains p

/-- Model of `fs.mkdirSync(p, { recursive: true })`: the directory is added
to the state (parent directories are not tracked separately). -/
def mkdirSync (fs : FS) (p : String) : FS := { fs with dirs := p :: fs.dirs }

/-- Names of the files of a directory, as `fs.readdirSync` lists them. -/
def readdirList (fs : FS) (p : String) : List String :=
  (fs.files.filter (fun f => f.1 = p)).map (fun f => f.2.1)

/-- Model of `fs.readdirSync`, which throws when the directory is absent. -/
def readdirSync (fs : FS) (p : String) : Except String (List String) :=
  if existsDir fs p then .ok (readdirList fs p) else .error "ENOENT"

/-- Model of `fs.readFileSync` on `path.join(dir, name)`, which throws when
the file is absent. -/
def readFileSync (fs : FS) (dir name : String) : Except String String :=
  match fs.files.find? (fun f => f.1 = dir && f.2.1 = name) with
  | some f => .ok f.2.2
  | none => .error "ENOENT"

/-- Directory constant of the ventures loader. -/
def venturesDirectory : String := "content/ventures"

/-- Directory constant of the blog loader. -/
def POSTS_PATH : String := "content/blog"

/-- Directory constant of the experiences loader. -/
def experiencesDirectory : String := "content/experiences"

/-- Test for the `.mdx` extension, as `fileName.endsWith(".mdx")`: the last
four characters, i.e. the first four of the reversed character list, are
`.mdx` reversed. -/
def endsWithMdx (s : String) : Bool :=
  s.data.reverse.take 4 = ['x', 'd', 'm', '.']

/-- Strip a final `.mdx`, as the end-anchored replace with the empty string
does. -/
def stripMdxExt (s : String) : String :=
  if endsWithMdx s then ⟨(s.data.reverse.drop 4).reverse⟩ else s

/-- Parsed in-memory representation of one content file, shared by the three
categories: the slug, the metadata map the header parser produced (the code
asserts rather than validates its shape), and the body text. -/
structure ContentRecord where
  slug : String
  frontmatter : List (String × YamlVal)
  content : String
deriving DecidableEq, Repr

/-- Lean model of `getAllVentureSlugs`: an absent directory yields the empty
list; otherwise the `.mdx` files of the directory, extensions stripped.  The
returned state is the filesystem after the call. -/
def getAllVentureSlugs (fs : FS) : FS × Except String (List String) :=
  if existsDir fs venturesDirectory then
    match readdirSync fs venturesDirectory with
    | .error e => (fs, .error e)
    | .ok fileNames =>
      (fs, .ok ((fileNames.filter endsWithMdx).map stripMdxExt))
  else (fs, .ok [])

/-- Lean model of `getVentureBySlug`: read and parse the file, returning
`none` when the read or the parse throws (the caught-and-logged error
path). -/
def getVentureBySlug (fs : FS) (slug : String) : Option ContentRecord :=
  match readFileSync fs venturesDirectory (slug ++ ".mdx") with
  | .error _ => none
  | .ok fileContents =>
    match matterParse fileContents with
    | .error _ => none
    | .ok (data, content) => some { slug := slug, frontmatter := data, content := content }

/-- Sort key of the ventures sort: the explicit numeric `order` value, with
999 substituted when the field is absent (`order ?? 999`). -/
def ventureOrderKey (v : ContentRecord) : Int :=
  match fmGet "order" v.frontmatter with
  | some (.num n) => n
  | _ => 999

/-- The sort step of `getAllVentures`: sort by ascending `ventureOrderKey`
(the JavaScript comparator `orderA - orderB`). -/
def sortVentures (l : List ContentRecord) : List ContentRecord :=
  l.insertionSort (fun a b => ventureOrderKey a ≤ ventureOrderKey b)

/-- Lean model of `getAllVentures`: list the slugs, load each one, drop the
failed loads, and sort by the order key. -/
def getAllVentures (fs : FS) : FS × Except String (List ContentRecord) :=
  match getAllVentureSlugs fs with
  | (fs1, .error e) => (fs1, .error e)
  | (fs1, .ok slugs) =>
    (fs1, .ok (sortVentures (slugs.filterMap (getVentureBySlug fs1))))

/-- Lean model of `getAllPostSlugs`: when the blog directory is absent it is
created (`fs.mkdirSync(POSTS_PATH, { recursive: true })`) and the empty list
is returned; otherwise the `.mdx` files, extensions stripped. -/
def getAllPostSlugs (fs : FS) : FS × Except String (List String) :=
  if existsDir fs POSTS_PATH then
    match readdirSync fs POSTS_PATH with
    | .error e => (fs, .error e)
    | .ok files =>
      (fs, .ok ((files.filter endsWithMdx).map stripMdxExt))
  else (mkdirSync fs POSTS_PATH, .ok [])

/-- Lean model of `getPostBySlug`: read and parse the file, `none` on a
thrown (caught) error. -/
def getPostBySlug (fs : FS) (slug : String) : Option ContentRecord :=
  match readFileSync fs POSTS_PATH (slug ++ ".mdx") with
  | .error _ => none
  | .ok fileContents =>
    match matterParse fileContents with
    | .error _ => none
    | .ok (data, content) => some { slug := slug, frontmatter := data, content := content }

/-- Order-preserving integer encoding of a string (base `1114112`, the
number of code points). -/
def stringLexKey (s : String) : Int :=
  s.data.foldl (fun acc c => acc * 1114112 + (c.toNat : Int)) 0

/-- Model of `new Date(frontmatter.date).getTime()`: on the ISO-8601 date
strings the content files use, chronological order coincides with
lexicographic order, which the encoding preserves; a numeric value is used
as is and an absent or boolean date (whose JavaScript result would be `NaN`)
is modelled as 0 — no verified statement depends on that case. -/
def dateKey (data : List (String × YamlVal)) : Int :=
  match fmGet "date" data with
  | some (.str s) => stringLexKey s
  | some (.num n) => n
  | _ => 0

/-- The published filter of `getAllPosts`:
`includeUnpublished || post.frontmatter.published !== false`. -/
def publishedKeep (includeUnpublished : Bool) (p : ContentRecord) : Bool :=
  includeUnpublished || fmGet "published" p.frontmatter != some (YamlVal.bool false)

/-- The filter-and-sort step of `getAllPosts`: keep the published records and
sort by date descending (the comparator `dateB - dateA`). -/
def selectPosts (includeUnpublished : Bool) (posts : List ContentRecord) :
    List ContentRecord :=
  (posts.filter (publishedKeep includeUnpublished)).insertionSort
    (fun a b => dateKey b.frontmatter ≤ dateKey a.frontmatter)

/-- Lean model of `getAllPosts`: list the slugs (creating the directory when
absent), load each one, drop the failed loads, filter by published status
and sort by date descending. -/
def getAllPosts (fs : FS) (includeUnpublished : Bool) :
    FS × Except String (List ContentRecord) :=
  match getAllPostSlugs fs with
  | (fs1, .error e) => (fs1, .error e)
  | (fs1, .ok slugs) =>
    (fs1, .ok (selectPosts includeUnpublished (slugs.filterMap (getPostBySlug fs1))))

/-- `getAllPosts` with its default argument (`includeUnpublished = false`). -/
def getAllPostsDefault (fs : FS) : FS × Except String (List ContentRecord) :=
  getAllPosts fs false

/-- Lean model of `getAllExperienceSlugs`: an absent directory yields the
empty list; otherwise the `.mdx` files, extensions stripped. -/
def getAllExperienceSlugs (fs : FS) : FS × Except String (List String) :=
  if existsDir fs experiencesDirectory then
    match readdirSync fs experiencesDirectory with
    | .error e => (fs, .error e)
    | .ok fileNames =>
      (fs, .ok ((fileNames.filter endsWithMdx).map stripMdxExt))
  else (fs, .ok [])

/-- Lean model of `getExperienceBySlug`: read and parse the file, `none` on
a thrown (caught) error. -/
def getExperienceBySlug (fs : FS) (slug : String) : Option ContentRecord :=
  match readFileSync fs experiencesDirectory (slug ++ ".mdx") with
  | .error _ => none
  | .ok fileContents =>
    match matterParse fileContents with
    | .error _ => none
    | .ok (data, content) => some { slug := slug, frontmatter := data, content := content }

/-- The explicit `order` value of an experience record, when present with
the numeric type its TypeScript interface declares. -/
def expOrderVal (e : ContentRecord) : Option Int :=
  match fmGet "order" e.frontmatter with
  | some (.num n) => some n
  | _ => none

/-- Truthiness of `frontmatter.current` for an experience record. -/
def expCurrent (e : ContentRecord) : Bool :=
  fmGet "current" e.frontmatter == some (YamlVal.bool true)

/-- Lean model of the comparator of the `getAllExperiences` sort: ascending
`order` when both records carry it, otherwise current roles first, otherwise
zero. -/
def compareExperiences (a b : ContentRecord) : Int :=
  match expOrderVal a, expOrderVal b with
  | some x, some y => x - y
  | _, _ =>
    if expCurrent a && !(expCurrent b) then -1
    else if !(expCurrent a) && expCurrent b then 1
    else 0

/-- The sort step of `getAllExperiences`. -/
def sortExperiences (l : List ContentRecord) : List ContentRecord :=
  l.insertionSort (fun a b => compareExperiences a b ≤ 0)

/-- Lean model of `getAllExperiences`: list the slugs, load each one, drop
the failed loads, and sort with `compareExperiences`. -/
def getAllExperiences (fs : FS) : FS × Except String (List ContentRecord) :=
  match getAllExperienceSlugs fs with
  | (fs1, .error e) => (fs1, .error e)
  | (fs1, .ok slugs) =>
    (fs1, .ok (sortExperiences (slugs.filterMap (getExperienceBySlug fs1))))

/-- Whether a blog data map carries every field the `BlogFrontmatter`
interface declares as required. -/
def completeBlogFrontmatter (data : List (String × YamlVal)) : Bool :=
  (fmGet "title" data).isSome && (fmGet "description" data).isSome
    && (fmGet "date" data).isSome && (fmGet "author" data).isSome
    && (fmGet "category" data).isSome && (fmGet "tags" data).isSome

/-- The icon components imported by the venture card. -/
inductive LucideIcon where
  | scale | wallet | church | trendingUp | zap | users | leaf | heart | bookOpen
deriving DecidableEq, Repr

/-- Lean model of the venture card's `iconMap`: string identifiers mapped to
icon components. -/
def iconMap : List (String × LucideIcon) :=
  [("scale", .scale), ("wallet", .wallet), ("church", .church),
   ("trending", .trendingUp), ("zap", .zap), ("users", .users),
   ("leaf", .leaf), ("heart", .heart), ("book", .bookOpen)]

/-- Property names inherited from `Object.prototype`, which a JavaScript
bracket lookup on an object literal reaches when the name is not an own
key; every one of their values (built-in methods, and the prototype object
itself for the `__proto__` accessor) is truthy. -/
def objectPrototypeKeys : List String :=
  ["constructor", "hasOwnProperty", "isPrototypeOf", "propertyIsEnumerable",
   "toLocaleString", "toString", "valueOf", "__proto__", "__defineGetter__",
   "__defineSetter__", "__lookupGetter__", "__lookupSetter__"]

/-- Value selected by the venture card's icon expression: either an icon
component, or a truthy member inherited from `Object.prototype` — which is
not a renderer at all. -/
inductive IconLookupResult where
  | icon (i : LucideIcon)
  | protoMember (name : String)
deriving DecidableEq, Repr

/-- Lean model of the icon selection `iconMap[venture.icon] || Scale` in
`VentureCard`, including JavaScript prototype-chain traversal: an own key
of the object literal selects its icon; failing that, a property name of
`Object.prototype` resolves to that inherited truthy member, so the
`|| Scale` fallback does not apply; only a name found in neither place
yields `undefined` and falls back to the Scale icon. -/
def ventureCardIcon (icon : String) : IconLookupResult :=
  match (iconMap.find? (fun kv => kv.1 = icon)).map (fun kv => kv.2) with
  | some i => .icon i
  | none =>
    if icon ∈ objectPrototypeKeys then .protoMember icon
    else .icon .scale

theorem getAllVentureSlugs_eq (fs : FS) :
    getAllVentureSlugs fs
      = (fs, .ok (if existsDir fs venturesDirectory then
          ((readdirList fs venturesDirectory).filter endsWithMdx).map stripMdxExt
        else [])) := by
  by_cases h : existsDir fs venturesDirectory = true
  · simp [getAllVentureSlugs, readdirSync, h]
  · simp only [Bool.not_eq_true] at h
    simp [getAllVentureSlugs, readdirSync, h]

theorem getAllExperienceSlugs_eq (fs : FS) :
    getAllExperienceSlugs fs
      = (fs, .ok (if existsDir fs experiencesDirectory then
          ((readdirList fs experiencesDirectory).filter endsWithMdx).map stripMdxExt
        else [])) := by
  by_cases h : existsDir fs experiencesDirectory = true
  · simp [getAllExperienceSlugs, readdirSync, h]
  · simp only [Bool.not_eq_true] at h
    simp [getAllExperienceSlugs, readdirSync, h]

theorem getAllPostSlugs_eq (fs : FS) :
    getAllPostSlugs fs
      = if existsDir fs POSTS_PATH then
          (fs, .ok (((readdirList fs POSTS_PATH).filter endsWithMdx).map stripMdxExt))
        else (mkdirSync fs POSTS_PATH, .ok []) := by
  by_cases h : existsDir fs POSTS_PATH = true
  · simp [getAllPostSlugs, readdirSync, h]
  · simp only [Bool.not_eq_true] at h
    simp [getAllPostSlugs, readdirSync, h]

theorem getAllVentures_eq (fs : FS) :
    getAllVentures fs
      = (fs, .ok (sortVentures
          ((if existsDir fs venturesDirectory then
              ((readdirList fs venturesDirectory).filter endsWithMdx).map stripMdxExt
            else []).filterMap (getVentureBySlug fs)))) := by
  rw [getAllVentures, getAllVentureSlugs_eq]

theorem getAllExperiences_eq (fs : FS) :
    getAllExperiences fs
      = (fs, .ok (sortExperiences
          ((if existsDir fs experiencesDirectory then
              ((readdirList fs experiencesDirectory).filter endsWithMdx).map stripMdxExt
            else []).filterMap (getExperienceBySlug fs)))) := by
  rw [getAllExperiences, getAllExperienceSlugs_eq]

theorem getAllPostsDefault_eq_exists (fs : FS)
    (h : existsDir fs POSTS_PATH = true) :
    getAllPostsDefault fs
      = (fs, .ok (selectPosts false
          ((((readdirList fs POSTS_PATH).filter endsWithMdx).map stripMdxExt).filterMap
            (getPostBySlug fs)))) := by
  rw [getAllPostsDefault, getAllPosts, getAllPostSlugs_eq, if_pos h]

theorem getAllPostsDefault_eq_missing (fs : FS)
    (h : existsDir fs POSTS_PATH = false) :
    getAllPostsDefault fs
      = (mkdirSync fs POSTS_PATH, .ok (selectPosts false
          (([] : List String).filterMap (getPostBySlug (mkdirSync fs POSTS_PATH))))) := by
  rw [getAllPostsDefault, getAllPosts, getAllPostSlugs_eq, if_neg (by simp [h])]

theorem selectPosts_nil (b : Bool) : selectPosts b [] = [] := rfl

theorem sortVentures_nil : sortVentures [] = [] := rfl

theorem sortExperiences_nil : sortExperiences [] = [] := rfl

/-- C6 counterexample: on a filesystem without the blog directory,
`getAllPostSlugs` changes the filesystem state (it creates the directory),
so the loader pipeline is not mutation-free. -/
theorem c6_counterexample :
    (getAllPostSlugs ⟨[], []⟩).1 ≠ (⟨[], []⟩ : FS) := by decide

/-- C6 (amended): the ventures and experiences loaders leave the filesystem
unchanged in every state, and so does the blog loader whenever the blog
directory exists; when the blog directory is absent, `getAllPostSlugs` (and
hence `getAllPosts`) mutates the filesystem exactly by creating the blog
directory, before returning an empty result. -/
theorem c6_loaders_filesystem_effects :
    ∀ fs : FS,
      (getAllVentureSlugs fs).1 = fs
      ∧ (getAllExperienceSlugs fs).1 = fs
      ∧ (getAllVentures fs).1 = fs
      ∧ (getAllExperiences fs).1 = fs
      ∧ (existsDir fs POSTS_PATH = true →
          (getAllPostSlugs fs).1 = fs ∧ (getAllPostsDefault fs).1 = fs)
      ∧ (existsDir fs POSTS_PATH = false →
          (getAllPostSlugs fs).1 = mkdirSync fs POSTS_PATH
          ∧ (getAllPostsDefault fs).1 = mkdirSync fs POSTS_PATH) := by
  intro fs
  refine ⟨?_, ?_, ?_, ?_, ?_, ?_⟩
  · rw [getAllVentureSlugs_eq]
  · rw [getAllExperienceSlugs_eq]
  · rw [getAllVentures_eq]
  · rw [getAllExperiences_eq]
  · intro h
    constructor
    · rw [getAllPostSlugs_eq, if_pos h]
    · rw [getAllPostsDefault_eq_exists fs h]
  · intro h
    constructor
    · rw [getAllPostSlugs_eq, if_neg (by simp [h])]
    · rw [getAllPostsDefault_eq_missing fs h]

/-- Witness for C6 (amended) at concrete states: a one-directory filesystem
for the existing-directory branch and the empty filesystem for the
missing-directory branch. -/
theorem c6_loaders_filesystem_effects_witness :
    existsDir ⟨["content/blog"], []⟩ POSTS_PATH = true
    ∧ (getAllPostSlugs ⟨["content/blog"], []⟩).1 = (⟨["content/blog"], []⟩ : FS)
    ∧ existsDir ⟨[], []⟩ POSTS_PATH = false
    ∧ (getAllPostSlugs ⟨[], []⟩).1 = mkdirSync ⟨[], []⟩ POSTS_PATH := by
  refine ⟨by decide, ((c6_loaders_filesystem_effects ⟨["content/blog"], []⟩).2.2.2.2.1
    (by decide)).1, by decide, ((c6_loaders_filesystem_effects ⟨[], []⟩).2.2.2.2.2
    (by decide)).1⟩

/-- C7: for each of the three content categories, a missing content
directory makes the slug loader and the record loader return an empty
collection through the non-error path. -/
theorem c7_missing_directory_empty :
    ∀ fs : FS,
      (existsDir fs venturesDirectory = false →
        (getAllVentureSlugs fs).2 = .ok [] ∧ (getAllVentures fs).2 = .ok [])
      ∧ (existsDir fs experiencesDirectory = false →
        (getAllExperienceSlugs fs).2 = .ok [] ∧ (getAllExperiences fs).2 = .ok [])
      ∧ (existsDir fs POSTS_PATH = false →
        (getAllPostSlugs fs).2 = .ok [] ∧ (getAllPostsDefault fs).2 = .ok []) := by
  intro fs
  refine ⟨?_, ?_, ?_⟩
  · intro h
    constructor
    · rw [getAllVentureSlugs_eq]
      simp [h]
    · rw [getAllVentures_eq]
      simp [h, sortVentures_nil]
  · intro h
    constructor
    · rw [getAllExperienceSlugs_eq]
      simp [h]
    · rw [getAllExperiences_eq]
      simp [h, sortExperiences_nil]
  · intro h
    constructor
    · rw [getAllPostSlugs_eq, if_neg (by simp [h])]
    · rw [getAllPostsDefault_eq_missing fs h]
      simp [selectPosts_nil]

/-- Witness for C7 at the empty filesystem. -/
theorem c7_missing_directory_empty_witness :
    existsDir ⟨[], []⟩ venturesDirectory = false
    ∧ (getAllVentures ⟨[], []⟩).2 = .ok [] := by
  refine ⟨by decide, ((c7_missing_directory_empty ⟨[], []⟩).1 (by decide)).2⟩

/-- Well-formed filesystem state: every file lies in an existing
directory. -/
def WellFormedFS (fs : FS) : Prop := ∀ f ∈ fs.files, f.1 ∈ fs.dirs

theorem readdirList_after_mkdir (fs : FS) (p : String) (hwf : WellFormedFS fs)
    (h : existsDir fs p = false) : readdirList (mkdirSync fs p) p = [] := by
  have hp : p ∉ fs.dirs := by
    intro hmem
    simp [existsDir] at h
    exact h hmem
  have hfilter : fs.files.filter (fun f => f.1 = p) = [] := by
    rw [List.filter_eq_nil_iff]
    intro f hf
    simp only [decide_eq_true_eq]
    intro heq
    exact hp (heq ▸ hwf f hf)
  simp only [readdirList, mkdirSync]
  rw [hfilter]
  rfl

theorem existsDir_mkdir (fs : FS) (p : String) :
    existsDir (mkdirSync fs p) p = true := by
  simp [existsDir, mkdirSync]

/-- C9: loading is a deterministic function of the directory state — the
ventures and experiences loaders leave the state unchanged, so two
successive invocations see the same state and return the same ordered
output; for the blog loader, whose first invocation may create the missing
blog directory, the second invocation still returns the same output as the
first. -/
theorem c9_deterministic_reload :
    ∀ fs : FS, WellFormedFS fs →
      ((getAllVentures fs).1 = fs
        ∧ (getAllVentures ((getAllVentures fs).1)).2 = (getAllVentures fs).2)
      ∧ ((getAllExperiences fs).1 = fs
        ∧ (getAllExperiences ((getAllExperiences fs).1)).2 = (getAllExperiences fs).2)
      ∧ (getAllPostsDefault ((getAllPostsDefault fs).1)).2
          = (getAllPostsDefault fs).2 := by
  intro fs hwf
  have hv : (getAllVentures fs).1 = fs := by rw [getAllVentures_eq]
  have he : (getAllExperiences fs).1 = fs := by rw [getAllExperiences_eq]
  refine ⟨⟨hv, by rw [hv]⟩, ⟨he, by rw [he]⟩, ?_⟩
  by_cases h : existsDir fs POSTS_PATH = true
  · have h1 := getAllPostsDefault_eq_exists fs h
    have hfst : (getAllPostsDefault fs).1 = fs := by rw [h1]
    rw [hfst]
  · simp only [Bool.not_eq_true] at h
    have h1 := getAllPostsDefault_eq_missing fs h
    have hfst : (getAllPostsDefault fs).1 = mkdirSync fs POSTS_PATH := by rw [h1]
    have hex := existsDir_mkdir fs POSTS_PATH
    rw [hfst, h1, getAllPostsDefault_eq_exists (mkdirSync fs POSTS_PATH) hex]
    rw [readdirList_after_mkdir fs POSTS_PATH hwf h]
    rfl

/-- Witness for C9 at the empty filesystem (trivially well formed). -/
theorem c9_deterministic_reload_witness :
    WellFormedFS ⟨[], []⟩
    ∧ (getAllPostsDefault ((getAllPostsDefault ⟨[], []⟩).1)).2
        = (getAllPostsDefault ⟨[], []⟩).2 := by
  have hwf : WellFormedFS ⟨[], []⟩ := by
    intro f hf
    exact absurd hf (List.not_mem_nil f)
  exact ⟨hwf, (c9_deterministic_reload ⟨[], []⟩ hwf).2.2⟩

theorem sortVentures_sorted (l : List ContentRecord) :
    (sortVentures l).Sorted (fun a b => ventureOrderKey a ≤ ventureOrderKey b) := by
  haveI : IsTotal ContentRecord (fun a b => ventureOrderKey a ≤ ventureOrderKey b) :=
    ⟨fun a b => Int.le_total _ _⟩
  haveI : IsTrans ContentRecord (fun a b => ventureOrderKey a ≤ ventureOrderKey b) :=
    ⟨fun a b c hab hbc => le_trans hab hbc⟩
  exact List.sorted_insertionSort _ l

theorem sortVentures_perm (l : List ContentRecord) : (sortVentures l).Perm l :=
  List.perm_insertionSort _ l

/-- C1 counterexample: a record with no `order` field (default key 999)
sorts before a record with explicit `order: 1000`, so a record lacking
`order` does not sort after every record that has one. -/
theorem c1_counterexample :
    fmGet "order" ((⟨"missing", [], ""⟩ : ContentRecord)).frontmatter = none
    ∧ fmGet "order" ((⟨"big", [("order", YamlVal.num 1000)], ""⟩ : ContentRecord)).frontmatter
        = some (YamlVal.num 1000)
    ∧ sortVentures [⟨"big", [("order", YamlVal.num 1000)], ""⟩, ⟨"missing", [], ""⟩]
        = [⟨"missing", [], ""⟩, ⟨"big", [("order", YamlVal.num 1000)], ""⟩] := by
  refine ⟨rfl, rfl, by decide⟩

/-- C1 (amended): the ventures sort orders records by ascending order key
(explicit `order`, defaulting to 999 when absent) and permutes the input;
consequently a record with no `order` field sorts after every record whose
explicit order value is below 999 (equivalently, any record with explicit
order appearing after a record lacking `order` has order at least 999); and
explicit orders `[3, 1, 2]` come out `[1, 2, 3]`. -/
theorem c1_ventures_order :
    (∀ l : List ContentRecord,
      (sortVentures l).Sorted (fun a b => ventureOrderKey a ≤ ventureOrderKey b)
      ∧ (sortVentures l).Perm l)
    ∧ (∀ (l : List ContentRecord) (i j : Nat) (hi : i < (sortVentures l).length)
        (hj : j < (sortVentures l).length), i < j →
        fmGet "order" ((sortVentures l).get ⟨i, hi⟩).frontmatter = none →
        ∀ n : Int,
          fmGet "order" ((sortVentures l).get ⟨j, hj⟩).frontmatter
            = some (YamlVal.num n) →
          999 ≤ n)
    ∧ sortVentures
        [⟨"a", [("order", YamlVal.num 3)], ""⟩, ⟨"b", [("order", YamlVal.num 1)], ""⟩,
         ⟨"c", [("order", YamlVal.num 2)], ""⟩]
      = [⟨"b", [("order", YamlVal.num 1)], ""⟩, ⟨"c", [("order", YamlVal.num 2)], ""⟩,
         ⟨"a", [("order", YamlVal.num 3)], ""⟩] := by
  refine ⟨fun l => ⟨sortVentures_sorted l, sortVentures_perm l⟩, ?_, by decide⟩
  intro l i j hi hj hij hnone n hsome
  have hs := sortVentures_sorted l
  have hrel := List.pairwise_iff_get.mp hs ⟨i, hi⟩ ⟨j, hj⟩ (Fin.mk_lt_mk.mpr hij)
  simp only [List.get_eq_getElem] at hnone hsome
  have h1 : ventureOrderKey ((sortVentures l).get ⟨i, hi⟩) = 999 := by
    simp [ventureOrderKey, hnone]
  have h2 : ventureOrderKey ((sortVentures l).get ⟨j, hj⟩) = n := by
    simp [ventureOrderKey, hsome]
  rw [h1, h2] at hrel
  exact hrel

/-- Witness for C1 (amended): on the two-record counterexample state, any
explicit order found after the missing-order record is at least 999. -/
theorem c1_ventures_order_witness :
    (0 : Nat) < 1
    ∧ fmGet "order" ((sortVentures [⟨"big", [("order", YamlVal.num 1000)], ""⟩,
        ⟨"missing", [], ""⟩]).get ⟨0, by decide⟩).frontmatter = none
    ∧ (999 : Int) ≤ 1000 := by
  refine ⟨by decide, by decide, ?_⟩
  exact c1_ventures_order.2.1
    [⟨"big", [("order", YamlVal.num 1000)], ""⟩, ⟨"missing", [], ""⟩]
    0 1 (by decide) (by decide) (by decide) (by decide) 1000 (by decide)

/-- C2: the published filter of `getAllPosts` — with the default argument a
record lacking `published` is kept and a record with `published: false` is
dropped; with the override flag a record with `published: false` is kept;
and `getAllPosts` applies exactly this filter-and-sort stage to the loaded
records. -/
theorem c2_published_filter :
    (∀ (posts : List ContentRecord) (p : ContentRecord), p ∈ posts →
      (fmGet "published" p.frontmatter = none → p ∈ selectPosts false posts)
      ∧ (fmGet "published" p.frontmatter = some (YamlVal.bool false) →
          p ∉ selectPosts false posts)
      ∧ (fmGet "published" p.frontmatter = some (YamlVal.bool false) →
          p ∈ selectPosts true posts))
    ∧ (∀ fs : FS, existsDir fs POSTS_PATH = true →
        (getAllPostsDefault fs).2 = .ok (selectPosts false
          ((((readdirList fs POSTS_PATH).filter endsWithMdx).map stripMdxExt).filterMap
            (getPostBySlug fs)))) := by
  constructor
  · intro posts p hp
    refine ⟨?_, ?_, ?_⟩
    · intro hnone
      simp only [selectPosts, List.mem_insertionSort]
      exact List.mem_filter.mpr ⟨hp, by simp [publishedKeep, hnone]⟩
    · intro hfalse hmem
      simp only [selectPosts, List.mem_insertionSort] at hmem
      have hkeep := (List.mem_filter.mp hmem).2
      simp [publishedKeep, hfalse] at hkeep
    · intro hfalse
      simp only [selectPosts, List.mem_insertionSort]
      exact List.mem_filter.mpr ⟨hp, by simp [publishedKeep]⟩
  · intro fs h
    rw [getAllPostsDefault_eq_exists fs h]

/-- Witness for C2 at a one-record list whose record lacks `published`. -/
theorem c2_published_filter_witness :
    ((⟨"p", [], ""⟩ : ContentRecord) ∈ ([⟨"p", [], ""⟩] : List ContentRecord))
    ∧ fmGet "published" ((⟨"p", [], ""⟩ : ContentRecord)).frontmatter = none
    ∧ (⟨"p", [], ""⟩ : ContentRecord) ∈ selectPosts false [⟨"p", [], ""⟩] := by
  refine ⟨by decide, by decide, ?_⟩
  exact (c2_published_filter.1 [⟨"p", [], ""⟩] ⟨"p", [], ""⟩ (by decide)).1 (by decide)

/-- C5: the comparator of the `getAllExperiences` sort — ascending explicit
`order` when both records carry it; otherwise a current record sorts before
a non-current one; and when neither rule distinguishes the records the
comparator returns 0, which under a stable sort preserves the original
enumeration order; `sortExperiences` is exactly the sort by this
comparator. -/
theorem c5_experience_comparator :
    ∀ a b : ContentRecord,
      (∀ x y : Int, expOrderVal a = some x → expOrderVal b = some y →
        compareExperiences a b = x - y)
      ∧ ((expOrderVal a = none ∨ expOrderVal b = none) →
        ((expCurrent a = true → expCurrent b = false → compareExperiences a b = -1)
        ∧ (expCurrent a = false → expCurrent b = true → compareExperiences a b = 1)
        ∧ (expCurrent a = expCurrent b → compareExperiences a b = 0)))
      ∧ sortExperiences
          = fun l => l.insertionSort (fun x y => compareExperiences x y ≤ 0) := by
  intro a b
  refine ⟨?_, ?_, rfl⟩
  · intro x y hx hy
    simp [compareExperiences, hx, hy]
  · intro hnone
    have hmatch : compareExperiences a b =
        (if expCurrent a && !(expCurrent b) then -1
         else if !(expCurrent a) && expCurrent b then 1 else 0) := by
      rcases hnone with h | h
      · simp [compareExperiences, h]
      · cases ha : expOrderVal a with
        | none => simp [compareExperiences, ha]
        | some x => simp [compareExperiences, ha, h]
    refine ⟨?_, ?_, ?_⟩
    · intro hca hcb
      rw [hmatch]
      simp [hca, hcb]
    · intro hca hcb
      rw [hmatch]
      simp [hca, hcb]
    · intro hcc
      rw [hmatch]
      cases hca : expCurrent a with
      | false =>
        have hcb : expCurrent b = false := hcc.symm.trans hca
        simp [hca, hcb]
      | true =>
        have hcb : expCurrent b = true := hcc.symm.trans hca
        simp [hca, hcb]

/-- Witness for C5: a current no-order record compares before a non-current
no-order record. -/
theorem c5_experience_comparator_witness :
    expOrderVal ((⟨"a", [("current", YamlVal.bool true)], ""⟩ : ContentRecord)) = none
    ∧ expCurrent ((⟨"a", [("current", YamlVal.bool true)], ""⟩ : ContentRecord)) = true
    ∧ expCurrent ((⟨"b", [], ""⟩ : ContentRecord)) = false
    ∧ compareExperiences ⟨"a", [("current", YamlVal.bool true)], ""⟩ ⟨"b", [], ""⟩
        = -1 := by
  refine ⟨by decide, by decide, by decide, ?_⟩
  exact ((c5_experience_comparator
      ⟨"a", [("current", YamlVal.bool true)], ""⟩ ⟨"b", [], ""⟩).2.1
    (Or.inl (by decide))).1 (by decide) (by decide)

/-- C10 counterexample: the icon string `"constructor"` is not one of the
nine recognized keys, yet the lookup does not select the Scale fallback —
the bracket lookup reaches the truthy `Object.prototype.constructor`
through the prototype chain, and the selected value is not an icon
component at all. -/
theorem c10_counterexample :
    ("constructor" : String) ∉ (["scale", "wallet", "church", "trending", "zap",
        "users", "leaf", "heart", "book"] : List String)
    ∧ ventureCardIcon "constructor" = .protoMember "constructor"
    ∧ ventureCardIcon "constructor" ≠ .icon .scale := by
  refine ⟨by decide, by decide, by decide⟩

/-- C10 (amended): each of the nine recognized keys selects its icon
component; the empty string, and every string that is neither one of the
nine keys nor a property name of `Object.prototype`, falls back to the
Scale icon; but an icon string naming an inherited `Object.prototype`
member (such as `constructor` or `toString`) resolves to that truthy
member instead, so the Scale fallback is not applied and the selected
value is not an icon component. -/
theorem c10_icon_lookup :
    (ventureCardIcon "scale" = .icon .scale
      ∧ ventureCardIcon "wallet" = .icon .wallet
      ∧ ventureCardIcon "church" = .icon .church
      ∧ ventureCardIcon "trending" = .icon .trendingUp
      ∧ ventureCardIcon "zap" = .icon .zap
      ∧ ventureCardIcon "users" = .icon .users
      ∧ ventureCardIcon "leaf" = .icon .leaf
      ∧ ventureCardIcon "heart" = .icon .heart
      ∧ ventureCardIcon "book" = .icon .bookOpen)
    ∧ (∀ s : String, s ∉ (["scale", "wallet", "church", "trending", "zap",
        "users", "leaf", "heart", "book"] : List String) →
        s ∉ objectPrototypeKeys → ventureCardIcon s = .icon .scale)
    ∧ (∀ s : String, s ∉ (["scale", "wallet", "church", "trending", "zap",
        "users", "leaf", "heart", "book"] : List String) →
        s ∈ objectPrototypeKeys → ventureCardIcon s = .protoMember s)
    ∧ ventureCardIcon "" = .icon .scale := by
  have hfind : ∀ s : String, s ∉ (["scale", "wallet", "church", "trending", "zap",
      "users", "leaf", "heart", "book"] : List String) →
      iconMap.find? (fun kv => kv.1 = s) = none := by
    intro s h
    simp only [List.mem_cons, List.not_mem_nil, or_false, not_or] at h
    obtain ⟨h1, h2, h3, h4, h5, h6, h7, h8, h9⟩ := h
    rw [List.find?_eq_none]
    intro kv hkv
    simp only [iconMap, List.mem_cons, List.not_mem_nil, or_false] at hkv
    rcases hkv with rfl | rfl | rfl | rfl | rfl | rfl | rfl | rfl | rfl
      <;> simp only [decide_eq_true_eq]
      <;> intro heq
    · exact h1 heq.symm
    · exact h2 heq.symm
    · exact h3 heq.symm
    · exact h4 heq.symm
    · exact h5 heq.symm
    · exact h6 heq.symm
    · exact h7 heq.symm
    · exact h8 heq.symm
    · exact h9 heq.symm
  refine ⟨by decide, ?_, ?_, by decide⟩
  · intro s h hproto
    simp [ventureCardIcon, hfind s h, hproto]
  · intro s h hproto
    simp [ventureCardIcon, hfind s h, hproto]

/-- Witness for C10 (amended): an unmapped non-prototype key falls back to
Scale, and a prototype-chain key does not. -/
theorem c10_icon_lookup_witness :
    ("rocket" : String) ∉ (["scale", "wallet", "church", "trending", "zap",
        "users", "leaf", "heart", "book"] : List String)
    ∧ ("rocket" : String) ∉ objectPrototypeKeys
    ∧ ventureCardIcon "rocket" = .icon .scale
    ∧ ("toString" : String) ∈ objectPrototypeKeys
    ∧ ventureCardIcon "toString" = .protoMember "toString" := by
  refine ⟨by decide, by decide, ?_, by decide, ?_⟩
  · exact c10_icon_lookup.2.1 "rocket" (by decide) (by decide)
  · exact c10_icon_lookup.2.2.1 "toString" (by decide) (by decide)

/-- C3 (amended): `calculateReadingTime` returns `"N min read"` where `N` is
the ceiling over 200 of the number of fields of the whitespace split, which
is one more than the number of whitespace runs; for a non-empty body with no
leading or trailing whitespace this field count is exactly the word count,
so a 450-word body yields `"3 min read"`; the empty body yields
`"1 min read"` (its split is one empty field), not a zero reading time. -/
theorem c3_reading_time :
    (∀ s : String, calculateReadingTime s
        = toString (((jsSplitWs s.data).length + 199) / 200) ++ " min read")
    ∧ (∀ s : String,
        (jsSplitWs s.data).length = countRuns isJsWhitespace s.data + 1)
    ∧ (∀ (s : String) (c₁ c₂ : Char), s.data.head? = some c₁ →
        s.data.getLast? = some c₂ → isJsWhitespace c₁ = false →
        isJsWhitespace c₂ = false →
        calculateReadingTime s
          = toString ((trueWordCount s + 199) / 200) ++ " min read")
    ∧ calculateReadingTime (String.intercalate " " (List.replicate 450 "word"))
        = "3 min read"
    ∧ calculateReadingTime "" = "1 min read" := by
  refine ⟨fun s => rfl, fun s => jsSplitWs_length s.data, ?_, by decide, by decide⟩
  intro s c₁ c₂ hh hl h1 h2
  have hlast : ∀ d, s.data.getLast? = some d → isJsWhitespace d = false := by
    intro d hd
    rw [hl] at hd
    injection hd with hd
    rw [← hd]
    exact h2
  have hlen : (jsSplitWs s.data).length
      = countRuns (fun d => !(isJsWhitespace d)) s.data :=
    jsSplitWs_length_of_trimmed s.data c₁ hh h1 hlast
  simp only [calculateReadingTime, trueWordCount, hlen]

/-- Witness for C3 (amended) at a two-word trimmed body. -/
theorem c3_reading_time_witness :
    ("abc def" : String).data.head? = some 'a'
    ∧ ("abc def" : String).data.getLast? = some 'f'
    ∧ calculateReadingTime "abc def"
        = toString ((trueWordCount "abc def" + 199) / 200) ++ " min read" := by
  refine ⟨by decide, by decide, ?_⟩
  exact c3_reading_time.2.2.1 "abc def" 'a' 'f' (by decide) (by decide)
    (by decide) (by decide)

/-- C3 counterexample: the empty body yields a reading time of one minute,
not zero — splitting the empty string on whitespace yields one (empty)
field, and the ceiling of 1/200 is 1. -/
theorem c3_counterexample :
    calculateReadingTime "" = "1 min read"
    ∧ calculateReadingTime "" ≠ "0 min read" := by
  exact ⟨by decide, by decide⟩

/-- C4: the anchor identifier derived in `extractTableOfContents` equals the
title lower-cased with every maximal run of non-alphanumeric characters
collapsed to a single dash and no leading or trailing dash (the maximal
alphanumeric runs joined by single dashes); in particular
`"Getting Started: Part 1!"` yields `getting-started-part-1`. -/
theorem c4_anchor_identifier :
    (∀ title : String, deriveAnchorId title = anchorOfSpec title)
    ∧ deriveAnchorId "Getting Started: Part 1!" = "getting-started-part-1" :=
  ⟨deriveAnchorId_eq_spec, by decide⟩

theorem stripMdxExt_append (m : String) (h : endsWithMdx m = true) :
    stripMdxExt m ++ ".mdx" = m := by
  have htake : m.data.reverse.take 4 = ['x', 'd', 'm', '.'] := by
    simpa [endsWithMdx] using h
  have hdata : m.data = (m.data.reverse.drop 4).reverse ++ ['.', 'm', 'd', 'x'] := by
    conv_lhs => rw [← List.reverse_reverse m.data]
    conv_lhs => rw [← List.take_append_drop 4 m.data.reverse, htake]
    rw [List.reverse_append]
    simp
  rw [stripMdxExt, if_pos h]
  apply String.ext
  rw [String.data_append]
  rw [show (".mdx" : String).data = ['.', 'm', 'd', 'x'] from rfl]
  exact hdata.symm

theorem getPostBySlug_some (fs : FS) (s : String) (p : ContentRecord)
    (h : getPostBySlug fs s = some p) :
    p.slug = s ∧ ∃ c, readFileSync fs POSTS_PATH (s ++ ".mdx") = .ok c
      ∧ matterParse c = .ok (p.frontmatter, p.content) := by
  unfold getPostBySlug at h
  split at h
  · exact absurd h (by simp)
  · rename_i c heqr
    split at h
    · exact absurd h (by simp)
    · rename_i data content heqm
      injection h with h
      subst h
      exact ⟨rfl, c, heqr, heqm⟩

deriving instance DecidableEq for Except

/-- C8 counterexample: a file whose content has no metadata header parses
successfully with an empty data map, and the resulting record — missing
every required frontmatter field — is surfaced by `getAllPosts`; the loader
does not validate the metadata shape. -/
theorem c8_counterexample :
    (getAllPostsDefault ⟨["content/blog"], [("content/blog", "post.mdx", "hello")]⟩).2
      = .ok [⟨"post", ([] : List (String × YamlVal)), "hello"⟩]
    ∧ completeBlogFrontmatter [] = false := by
  exact ⟨by decide, by decide⟩

/-- C8 (amended): every record surfaced by `getAllPosts` comes from a file
whose read and parse succeeded (no `null` is surfaced, the failed loads are
dropped by the filter), and a file whose parse throws is non-fatal: adding
such a file to the directory leaves the output unchanged; but the metadata
shape of a successfully parsed file is not validated, so records with
missing header fields can be surfaced. -/
theorem c8_parse_failures_dropped :
    (∀ (fs : FS) (posts : List ContentRecord),
      (getAllPostsDefault fs).2 = .ok posts →
      ∀ p ∈ posts,
        getPostBySlug ((getAllPostsDefault fs).1) p.slug = some p
        ∧ ∃ c, readFileSync ((getAllPostsDefault fs).1) POSTS_PATH (p.slug ++ ".mdx")
              = .ok c
          ∧ matterParse c = .ok (p.frontmatter, p.content))
    ∧ (∀ (fs : FS) (name bad e : String),
        existsDir fs POSTS_PATH = true →
        endsWithMdx name = true →
        name ∉ readdirList fs POSTS_PATH →
        matterParse bad = .error e →
        (getAllPostsDefault ⟨fs.dirs, (POSTS_PATH, name, bad) :: fs.files⟩).2
          = (getAllPostsDefault fs).2) := by
  constructor
  · intro fs posts hok p hp
    by_cases h : existsDir fs POSTS_PATH = true
    · have h1 := getAllPostsDefault_eq_exists fs h
      have hfst : (getAllPostsDefault fs).1 = fs := by rw [h1]
      have hsnd : (getAllPostsDefault fs).2 = .ok (selectPosts false
          ((((readdirList fs POSTS_PATH).filter endsWithMdx).map stripMdxExt).filterMap
            (getPostBySlug fs))) := by rw [h1]
      rw [hsnd] at hok
      injection hok with hok
      subst hok
      have hpL : p ∈ (((readdirList fs POSTS_PATH).filter endsWithMdx).map
          stripMdxExt).filterMap (getPostBySlug fs) := by
        have hp2 := hp
        simp only [selectPosts, List.mem_insertionSort] at hp2
        exact (List.mem_filter.mp hp2).1
      obtain ⟨s, hs, hsp⟩ := List.mem_filterMap.mp hpL
      obtain ⟨hslug, c, hr, hm⟩ := getPostBySlug_some fs s p hsp
      rw [hfst, hslug]
      exact ⟨hsp, c, hr, hm⟩
    · simp only [Bool.not_eq_true] at h
      have h1 := getAllPostsDefault_eq_missing fs h
      have hsnd : (getAllPostsDefault fs).2 = .ok [] := by rw [h1]; rfl
      rw [hsnd] at hok
      injection hok with hok
      rw [← hok] at hp
      exact absurd hp (List.not_mem_nil p)
  · intro fs name bad e hex hmdx hnotin hbad
    have hex' : existsDir (⟨fs.dirs, (POSTS_PATH, name, bad) :: fs.files⟩ : FS)
        POSTS_PATH = true := hex
    have hreaddir : readdirList (⟨fs.dirs, (POSTS_PATH, name, bad) :: fs.files⟩ : FS)
        POSTS_PATH = name :: readdirList fs POSTS_PATH := by
      simp [readdirList]
    have hnew : getPostBySlug (⟨fs.dirs, (POSTS_PATH, name, bad) :: fs.files⟩ : FS)
        (stripMdxExt name) = none := by
      have hrf : readFileSync (⟨fs.dirs, (POSTS_PATH, name, bad) :: fs.files⟩ : FS)
          POSTS_PATH (stripMdxExt name ++ ".mdx") = .ok bad := by
        rw [stripMdxExt_append name hmdx]
        simp [readFileSync, List.find?]
      unfold getPostBySlug
      rw [hrf]
      simp [hbad]
    have hold : ∀ s ∈ ((readdirList fs POSTS_PATH).filter endsWithMdx).map stripMdxExt,
        getPostBySlug (⟨fs.dirs, (POSTS_PATH, name, bad) :: fs.files⟩ : FS) s
          = getPostBySlug fs s := by
      intro s hsmem
      obtain ⟨m, hmmem, hms⟩ := List.mem_map.mp hsmem
      have hmmdx : endsWithMdx m = true := List.of_mem_filter hmmem
      have hmdir : m ∈ readdirList fs POSTS_PATH := List.mem_of_mem_filter hmmem
      have hsmdx : s ++ ".mdx" = m := by
        rw [← hms]
        exact stripMdxExt_append m hmmdx
      have hneq : name ≠ s ++ ".mdx" := by
        rw [hsmdx]
        intro heq
        exact hnotin (heq ▸ hmdir)
      have hrf : readFileSync (⟨fs.dirs, (POSTS_PATH, name, bad) :: fs.files⟩ : FS)
          POSTS_PATH (s ++ ".mdx") = readFileSync fs POSTS_PATH (s ++ ".mdx") := by
        simp only [readFileSync]
        rw [List.find?_cons_of_neg]
        simp [hneq]
      unfold getPostBySlug
      rw [hrf]
    rw [getAllPostsDefault_eq_exists _ hex', getAllPostsDefault_eq_exists fs hex]
    show Except.ok (selectPosts false
        ((((readdirList (⟨fs.dirs, (POSTS_PATH, name, bad) :: fs.files⟩ : FS)
          POSTS_PATH).filter endsWithMdx).map stripMdxExt).filterMap
          (getPostBySlug (⟨fs.dirs, (POSTS_PATH, name, bad) :: fs.files⟩ : FS))))
      = Except.ok (selectPosts false
        ((((readdirList fs POSTS_PATH).filter endsWithMdx).map stripMdxExt).filterMap
          (getPostBySlug fs)))
    rw [hreaddir, List.filter_cons_of_pos (by simpa using hmdx), List.map_cons,
      List.filterMap_cons_none hnew, List.filterMap_congr hold]

/-- Witness for C8 (amended) at a one-file directory state. -/
theorem c8_parse_failures_dropped_witness :
    ((getAllPostsDefault ⟨["content/blog"], [("content/blog", "post.mdx", "hello")]⟩).2
        = .ok [⟨"post", ([] : List (String × YamlVal)), "hello"⟩])
    ∧ getPostBySlug ((getAllPostsDefault ⟨["content/blog"],
        [("content/blog", "post.mdx", "hello")]⟩).1) "post"
      = some ⟨"post", ([] : List (String × YamlVal)), "hello"⟩ := by
  refine ⟨by decide, ?_⟩
  exact (c8_parse_failures_dropped.1
    ⟨["content/blog"], [("content/blog", "post.mdx", "hello")]⟩
    [⟨"post", [], "hello"⟩] (by decide) ⟨"post", [], "hello"⟩ (by decide)).1
